import Mathlib

/-!
Verification development for the geektools plugin lifecycle manager and
script dependency resolver.  The Rust sources in `src/scripts/mod.rs`,
`src/plugins/mod.rs`, `src/recovery.rs` and `src/errors.rs` are shallowly
embedded below: hash maps and hash sets become association lists / member
lists (their iteration order is made explicit as list order), fallible
operations return `Except`, and filesystem effects are threaded through an
explicit state record.
-/

namespace Scripts

/-- Import graph: association list from a script name to the list of script
names it imports, mirroring `HashMap<String, Vec<String>>` in
`scripts/mod.rs`.  List order stands in for the (unspecified) hash-map
iteration order. -/
abbrev Deps := List (String × List String)

/-- The children (imports) of a node, `deps.get(node)` defaulted to `[]`. -/
def childrenOf (deps : Deps) (n : String) : List String :=
  (List.lookup n deps).getD []

/-- One import edge of the graph. -/
def Edge (deps : Deps) (a b : String) : Prop :=
  b ∈ childrenOf deps a

/-- Nonempty path in the import graph (at least one edge). -/
inductive Reaches (deps : Deps) : String → String → Prop where
  | single {a b : String} : Edge deps a b → Reaches deps a b
  | cons {a b c : String} : Edge deps a b → Reaches deps b c → Reaches deps a c

/-- The graph has a cycle: some node reaches itself through ≥ 1 edge. -/
def HasCycle (deps : Deps) : Prop := ∃ n, Reaches deps n n

/-- All node names mentioned by the graph (keys and children). -/
def univNodes (deps : Deps) : List String :=
  (deps.map Prod.fst ++ deps.flatMap Prod.snd).dedup

/-- Split a character sequence at newline characters (`str::lines`). -/
def splitLinesAux : List Char → List Char → List (List Char)
  | [], acc => [acc.reverse]
  | c :: rest, acc =>
    if c = '\n' then acc.reverse :: splitLinesAux rest []
    else splitLinesAux rest (c :: acc)

/-- Whitespace for `str::trim` (the characters occurring in scripts). -/
def isWhite (c : Char) : Bool :=
  c = ' ' || c = '\t' || c = '\n' || c = '\r'

/-- `str::trim` on a character sequence. -/
def trimChars (l : List Char) : List Char :=
  ((l.dropWhile isWhite).reverse.dropWhile isWhite).reverse

/-- `parse_imports`: every line whose trimmed form starts with
`"#@import "` contributes the trimmed remainder of the line
(`trimmed[9..].trim()`).  String slicing is transcribed on the character
lists. -/
def parse_imports (content : String) : List String :=
  (splitLinesAux content.data []).filterMap (fun line =>
    let trimmed := trimChars line
    if "#@import ".data.isPrefixOf trimmed then
      some (String.mk (trimChars (trimmed.drop 9)))
    else
      none)

/-- Sequentially runs `step` over a list, threading the `visited` set and
propagating errors / fuel exhaustion; this is the `for child in children`
loop of `visit` in `detect_cycles`. -/
def chainVisit (step : List String → String → Option (Except String (List String))) :
    List String → List String → Option (Except String (List String))
  | [], visited => some (.ok visited)
  | c :: cs, visited =>
    match step visited c with
    | none => none
    | some (.error e) => some (.error e)
    | some (.ok v) => chainVisit step cs v

/-- The recursive `visit` of `detect_cycles` (`scripts/mod.rs`): fails with
the offending node when it meets a node in the `visiting` set, skips nodes
already `visited`, and otherwise visits all children with itself added to
`visiting`, adding itself to `visited` afterwards.  `visited` is a
duplicate-free list (insertion at the head) so completion order is
recorded; the Rust `HashSet` only ever uses membership.  The `Nat` is fuel;
`none` means the fuel ran out (shown unreachable for sufficient fuel). -/
def visitF (deps : Deps) : Nat → String → List String → List String →
    Option (Except String (List String))
  | 0, _, _, _ => none
  | fuel + 1, node, visiting, visited =>
    if node ∈ visiting then some (.error node)
    else if node ∈ visited then some (.ok visited)
    else
      match chainVisit (fun v c => visitF deps fuel c (node :: visiting) v)
          (childrenOf deps node) visited with
      | none => none
      | some (.error e) => some (.error e)
      | some (.ok v) => some (.ok (node :: v))

/-- The outer loop of `detect_cycles`: iterate over the map entries, and for
every key not yet visited run `visit` with a fresh `visiting` set. -/
def goKeys (deps : Deps) : List (String × List String) → List String →
    Option (Except String (List String))
  | [], visited => some (.ok visited)
  | (k, _) :: rest, visited =>
    if k ∈ visited then goKeys deps rest visited
    else
      match visitF deps ((univNodes deps).length + 1) k [] visited with
      | none => none
      | some (.error e) => some (.error e)
      | some (.ok v) => goKeys deps rest v

/-- Errors of dependency resolution (`scripts/mod.rs` uses `String`
messages; the constructors carry the interpolated data of the
corresponding `format!` calls). -/
inductive ScriptErr where
  | notFound (name : String)
  | circular (node : String)
  | unresolved
  | fuelOut
  deriving DecidableEq, Repr

/-- `detect_cycles`: DFS cycle detection over the import graph. -/
def detect_cycles (deps : Deps) : Except ScriptErr Unit :=
  match goKeys deps deps [] with
  | none => .error .fuelOut
  | some (.error n) => .error (.circular n)
  | some (.ok _) => .ok ()

/-- `in_degree.entry(node).or_insert(0)`: ensure a key exists with default 0. -/
def ensureKey (m : List (String × Nat)) (k : String) : List (String × Nat) :=
  if (List.lookup k m).isSome then m else m ++ [(k, 0)]

/-- `*in_degree.entry(child).or_insert(0) += 1`. -/
def incKey (m : List (String × Nat)) (k : String) : List (String × Nat) :=
  if (List.lookup k m).isSome then
    m.map (fun p => if p.1 == k then (p.1, p.2 + 1) else p)
  else m ++ [(k, 1)]

/-- `all_nodes.insert(..)` on a `HashSet` modelled as a duplicate-free list. -/
def insertNew (l : List String) (x : String) : List String :=
  if x ∈ l then l else l ++ [x]

/-- First phase of `topological_sort`: one pass over the map entries building
the `all_nodes` set and the `in_degree` counts. -/
def buildDegrees (deps : Deps) : List String × List (String × Nat) :=
  deps.foldl
    (fun acc p =>
      let acc1 := (insertNew acc.1 p.1, ensureKey acc.2 p.1)
      p.2.foldl (fun a c => (insertNew a.1 c, incKey a.2 c)) acc1)
    ([], [])

/-- `if let Some(degree) = in_degree.get_mut(child) { *degree -= 1; .. }`:
returns the updated map and whether the degree just reached zero. -/
def decChild (m : List (String × Nat)) (c : String) :
    List (String × Nat) × Bool :=
  match List.lookup c m with
  | none => (m, false)
  | some d =>
    (m.map (fun p => if p.1 == c then (p.1, p.2 - 1) else p), d - 1 == 0)

/-- The inner `for child in children` loop of the Kahn phase: decrement each
child's in-degree and collect (in iteration order) the children whose degree
became zero; those are pushed onto the worklist. -/
def decChildren (m : List (String × Nat)) (cs : List String) :
    List (String × Nat) × List String :=
  cs.foldl
    (fun st c =>
      let r := decChild st.1 c
      (r.1, if r.2 then st.2 ++ [c] else st.2))
    (m, [])

/-- The `while let Some(node) = queue.pop()` loop.  The Rust worklist is a
`Vec` popped from its end; the list here is that `Vec` reversed, so `pop` is
head-matching and a push is `cons`.  Fueled; `none` is unreachable for the
fuel supplied by `topological_sort`. -/
def kahnLoop (deps : Deps) : Nat → List String → List (String × Nat) →
    List String → Option (List String)
  | 0, _, _, _ => none
  | _ + 1, [], _, result => some result
  | fuel + 1, node :: rest, indeg, result =>
    let st := decChildren indeg (childrenOf deps node)
    kahnLoop deps fuel (st.2.reverse ++ rest) st.1 (result ++ [node])

/-- `topological_sort` (`scripts/mod.rs`): runs `detect_cycles`, then Kahn's
algorithm seeded with the zero-in-degree nodes in map iteration order,
and finally checks the result covers every discovered node. -/
def topological_sort (deps : Deps) : Except ScriptErr (List String) :=
  match detect_cycles deps with
  | .error e => .error e
  | .ok _ =>
    let st := buildDegrees deps
    let queue := ((st.2.filter (fun q => q.2 == 0)).map Prod.fst).reverse
    match kahnLoop deps (st.2.length + 1) queue st.2 [] with
    | none => .error .fuelOut
    | some result =>
      if result.length = st.1.length then .ok result
      else .error .unresolved

/-- The embedded-asset store: script name to textual content
(`Assets::get` / `get_string`). -/
abbrev Store := List (String × String)

/-- `get_string`: look a script's content up in the asset store. -/
def get_string (store : Store) (name : String) : Option String :=
  List.lookup name store

/-- `deps.insert(current, imports)` on the association-list graph. -/
def insertDeps (deps : Deps) (k : String) (v : List String) : Deps :=
  if (List.lookup k deps).isSome then
    deps.map (fun p => if p.1 == k then (p.1, v) else p)
  else deps ++ [(k, v)]

/-- The worklist loop of `resolve_dependencies`: pop a script (the Rust
`Vec` is popped from its end, so the list here is the reversed `Vec`), skip
it if processed, otherwise fetch its content, record its imports in the
graph and push the unprocessed imports.  Fueled. -/
def resolveAux (store : Store) : Nat → List String → List String → Deps →
    Except ScriptErr Deps
  | 0, _, _, _ => .error .fuelOut
  | _ + 1, [], _, deps => .ok deps
  | fuel + 1, cur :: rest, processed, deps =>
    if cur ∈ processed then resolveAux store fuel rest processed deps
    else
      match get_string store cur with
      | none => .error (.notFound cur)
      | some content =>
        let imports := parse_imports content
        let toAdd := (imports.filter (fun i => i ∉ processed)).reverse
        resolveAux store fuel (toAdd ++ rest) (processed ++ [cur])
          (insertDeps deps cur imports)

/-- A fuel bound for `resolveAux`: every loop iteration pops one worklist
element, every push is the initial entry or one import directive of the
store, and the final empty-worklist step takes one more unit. -/
def resolveFuel (store : Store) : Nat :=
  2 + store.foldl (fun n p => n + (parse_imports p.2).length) 0

/-- `resolve_dependencies` (`scripts/mod.rs`): build the import graph
reachable from the entry script, then topologically sort it. -/
def resolve_dependencies (store : Store) (name : String) :
    Except ScriptErr (List String) :=
  match resolveAux store (resolveFuel store) [name] [] [] with
  | .error e => .error e
  | .ok deps => topological_sort deps

/-- The execution-path part of `materialize_with_deps`: every resolved
script is materialized, but only names ending in `".sh"` are pushed onto
the list of paths to execute. -/
def materialize_with_deps (store : Store) (name : String) :
    Except ScriptErr (List String) :=
  (resolve_dependencies store name).map
    (fun order => order.filter (fun s => ".sh".data.isSuffixOf s.data))

/-- Every completed node's children occur later (toward the tail) in the
DFS completion list; the ghost order of the `visited` set. -/
def ClosedList (deps : Deps) (W : List String) : Prop :=
  ∀ w₁ n w₂, W = w₁ ++ n :: w₂ → ∀ c ∈ childrenOf deps n, c ∈ w₂

/-- The two-node cycle of the spec scenario: X imports Y, Y imports X. -/
def depsXY : Deps := [("X", ["Y"]), ("Y", ["X"])]

end Scripts

namespace Plugins

/-- `ScriptEntry` (`plugins/mod.rs`). -/
structure ScriptEntry where
  name : String
  file : String
  description : String
  executable : Bool
  deriving DecidableEq, Repr

/-- `PluginInfo` (`plugins/mod.rs`): the parsed `info.json` manifest. -/
structure PluginInfo where
  id : String
  name : String
  version : String
  description : String
  author : String
  scripts : List ScriptEntry
  dependencies : List String
  tags : List String
  min_geektools_version : Option String
  deriving DecidableEq, Repr

/-- `InstalledPlugin` (`plugins/mod.rs`). -/
structure InstalledPlugin where
  info : PluginInfo
  install_path : String
  installed_at : String
  enabled : Bool
  deriving DecidableEq, Repr

/-- The in-memory registry `HashMap<String, InstalledPlugin>`, modelled as
an association list. -/
abbrev Registry := List (String × InstalledPlugin)

/-- `HashMap::contains_key`. -/
def containsKey (r : Registry) (k : String) : Bool :=
  (List.lookup k r).isSome

/-- Content of an extracted plugin package directory, as far as
`validate_plugin_package` inspects it: the state of `info.json`
(missing / present-but-unparsable / parsed) and the state of the `scripts`
directory (missing, or the file names inside it). -/
structure PkgTree where
  infoJson : Option (Option PluginInfo)
  scriptsDir : Option (List String)
  deriving DecidableEq, Repr

/-- The errors `install_plugin` and its helpers report; each constructor
stands for one of the `format!` messages in `plugins/mod.rs`. -/
inductive PluginErr where
  | fileNotExist
  | extractFailed
  | missingInfoJson
  | parseInfoFailed
  | emptyId
  | emptyName
  | emptyVersion
  | missingScriptsDir
  | scriptFileNotFound (file : String)
  | alreadyInstalled (id : String)
  | missingDependency (id : String)
  | removeDirFailed
  | copyFailed
  | setExecutableFailed
  | saveRegistryFailed
  | notInstalled (id : String)
  | registryParseFailed
  deriving DecidableEq, Repr

/-- The scripts loop at the end of `validate_plugin_package`: the first
declared script file absent from the `scripts` directory is reported. -/
def checkScriptFiles (files : List String) :
    List ScriptEntry → Except PluginErr Unit
  | [] => .ok ()
  | s :: rest =>
    if s.file ∈ files then checkScriptFiles files rest
    else .error (.scriptFileNotFound s.file)

/-- `validate_plugin_package` (`plugins/mod.rs`): requires `info.json` to
exist and parse, non-empty `id`/`name`/`version`, a `scripts` directory,
and every declared script file to exist in it. -/
def validate_plugin_package (t : PkgTree) : Except PluginErr PluginInfo :=
  match t.infoJson with
  | none => .error .missingInfoJson
  | some none => .error .parseInfoFailed
  | some (some info) =>
    if info.id.isEmpty then .error .emptyId
    else if info.name.isEmpty then .error .emptyName
    else if info.version.isEmpty then .error .emptyVersion
    else
      match t.scriptsDir with
      | none => .error .missingScriptsDir
      | some files =>
        match checkScriptFiles files info.scripts with
        | .error e => .error e
        | .ok _ => .ok info

/-- `check_dependencies` (`plugins/mod.rs`): the first declared dependency
id not present in the registry is reported. -/
def check_dependencies (r : Registry) : List String → Except PluginErr Unit
  | [] => .ok ()
  | d :: rest =>
    if containsKey r d then check_dependencies r rest
    else .error (.missingDependency d)

/-- State of the registry file `~/.geektools/plugins/registry.json` on
disk. -/
inductive RegFile where
  | missing
  | corrupt
  | parsed (r : Registry)
  deriving DecidableEq, Repr

/-- State of an on-disk directory tree produced by the install copy step:
either the full package tree or the remains of a copy that failed midway. -/
inductive DirState where
  | full (t : PkgTree)
  | broken
  deriving DecidableEq, Repr

/-- The filesystem-and-memory state the plugin manager operates on:
the in-memory registry, the registry file, the permanent install
directories (keyed by their path) and the temporary extraction directories
(keyed by the random suffix; `none` content = extraction failed midway). -/
structure Sys where
  plugins : Registry
  registryFile : RegFile
  installDirs : List (String × DirState)
  tempDirs : List (Nat × Option PkgTree)
  deriving DecidableEq, Repr

/-- The nondeterministic environment of one `install_plugin` run: the
random temp-dir suffix, the timestamp, and whether each fallible
filesystem step fails. -/
structure Env where
  tempId : Nat
  now : String
  removeDirFails : Bool
  copyFails : Bool
  setExecutableFails : Bool
  saveFails : Bool
  deriving DecidableEq, Repr

/-- The archive argument of `install_plugin`, as far as the extraction step
can tell: the path does not exist, the gzip/tar stream is corrupt, or it
unpacks to a package tree. -/
inductive ArchiveSrc where
  | absent
  | corrupt
  | ok (t : PkgTree)
  deriving DecidableEq, Repr

/-- `PLUGINS_DIR.join(id)`. -/
def installPathOf (id : String) : String :=
  ".geektools/plugins/" ++ id

/-- `HashMap::insert` on the association-list registry. -/
def insertReg (r : Registry) (k : String) (v : InstalledPlugin) : Registry :=
  if containsKey r k then
    r.map (fun p => if p.1 == k then (p.1, v) else p)
  else r ++ [(k, v)]

/-- Remove the first entry with the given key (`HashMap::remove`). -/
def removeReg (r : Registry) (k : String) : Registry :=
  r.eraseP (fun p => p.1 == k)

/-- Remove a directory from a keyed directory list (`fileio::remove_dir`). -/
def removeDir (dirs : List (String × DirState)) (path : String) :
    List (String × DirState) :=
  dirs.eraseP (fun p => p.1 == path)

/-- `install_plugin` (`plugins/mod.rs`), step by step over the explicit
state: existence check, extraction into a fresh temp directory, package
validation, already-installed check, dependency check, removal of a stale
install directory, recursive copy, executable bits, registry insert,
registry save, and finally (success only) removal of the temp directory.
Returns the result together with the final state. -/
def install_plugin (env : Env) (src : ArchiveSrc) (s : Sys) :
    Except PluginErr String × Sys :=
  match src with
  | .absent => (.error .fileNotExist, s)
  | .corrupt =>
    -- the temp directory is created before unpacking fails
    (.error .extractFailed,
      { s with tempDirs := (env.tempId, none) :: s.tempDirs })
  | .ok t =>
    let s1 : Sys := { s with tempDirs := (env.tempId, some t) :: s.tempDirs }
    match validate_plugin_package t with
    | .error e => (.error e, s1)
    | .ok info =>
      if containsKey s1.plugins info.id then
        (.error (.alreadyInstalled info.id), s1)
      else
        match check_dependencies s1.plugins info.dependencies with
        | .error e => (.error e, s1)
        | .ok _ =>
          let path := installPathOf info.id
          if (List.lookup path s1.installDirs).isSome ∧ env.removeDirFails then
            (.error .removeDirFailed, s1)
          else
            let s2 : Sys := { s1 with installDirs := removeDir s1.installDirs path }
            if env.copyFails then
              (.error .copyFailed,
                { s2 with installDirs := (path, .broken) :: s2.installDirs })
            else
              let s3 : Sys :=
                { s2 with installDirs := (path, .full t) :: s2.installDirs }
              if env.setExecutableFails then (.error .setExecutableFailed, s3)
              else
                let rec' : InstalledPlugin :=
                  { info := info, install_path := path,
                    installed_at := env.now, enabled := true }
                let s4 : Sys :=
                  { s3 with plugins := insertReg s3.plugins info.id rec' }
                if env.saveFails then (.error .saveRegistryFailed, s4)
                else
                  (.ok info.id,
                    { s4 with
                      registryFile := .parsed s4.plugins,
                      tempDirs := s4.tempDirs.eraseP
                        (fun p => p.1 == env.tempId) })

/-- `uninstall_plugin` (`plugins/mod.rs`). -/
def uninstall_plugin (env : Env) (id : String) (s : Sys) :
    Except PluginErr Unit × Sys :=
  match List.lookup id s.plugins with
  | none => (.error (.notInstalled id), s)
  | some p =>
    if (List.lookup p.install_path s.installDirs).isSome ∧ env.removeDirFails
    then (.error .removeDirFailed, s)
    else
      let s1 : Sys :=
        { s with
          installDirs := removeDir s.installDirs p.install_path,
          plugins := removeReg s.plugins id }
      if env.saveFails then (.error .saveRegistryFailed, s1)
      else (.ok (), { s1 with registryFile := .parsed s1.plugins })

/-- `toggle_plugin` (`plugins/mod.rs`). -/
def toggle_plugin (env : Env) (id : String) (enabled : Bool) (s : Sys) :
    Except PluginErr Unit × Sys :=
  match List.lookup id s.plugins with
  | none => (.error (.notInstalled id), s)
  | some p =>
    let s1 : Sys :=
      { s with plugins := insertReg s.plugins id { p with enabled := enabled } }
    if env.saveFails then (.error .saveRegistryFailed, s1)
    else (.ok (), { s1 with registryFile := .parsed s1.plugins })

/-- `load_installed_plugins` (`plugins/mod.rs`): a missing registry file
leaves the (empty) in-memory registry as is, a present-but-unparsable one
is an error, a parsed one is taken verbatim — no validation of its keys. -/
def load_installed_plugins (f : RegFile) : Except PluginErr Registry :=
  match f with
  | .missing => .ok []
  | .corrupt => .error .registryParseFailed
  | .parsed r => .ok r

/-- `PluginManager::new`: starts from an empty map and loads the registry
file; a load error is only printed as a warning and the manager is
returned anyway. -/
def new (f : RegFile) : Registry :=
  match load_installed_plugins f with
  | .error _ => []
  | .ok r => r

/-- The registry invariant of the spec: every key of the map equals its
value's manifest id. -/
def RegInv (r : Registry) : Prop :=
  ∀ p ∈ r, p.2.info.id = p.1

end Plugins

namespace Recovery

/-- `GeekToolsError` (`errors.rs`), payloads reduced to the strings they
carry. -/
inductive GeekToolsError where
  | fileOperationError (path : String)
  | networkError (url : String)
  | configError (message : String)
  | scriptExecutionError (script_name : String) (exit_code : Option Int)
  | pluginError (plugin_name : String) (message : String)
  | localizationError (key : String)
  | permissionError (operation : String)
  | validationError (field : String) (message : String)
  deriving DecidableEq, Repr

/-- `GeekToolsError::is_recoverable` (`errors.rs`): network, file-operation
and config errors are recoverable, everything else is fatal. -/
def is_recoverable : GeekToolsError → Bool
  | .networkError _ => true
  | .fileOperationError _ => true
  | .configError _ => true
  | _ => false

/-- `RetryConfig` (`recovery.rs`).  Delays are in milliseconds.  The `f64`
field `backoff_factor` is represented by the function `bumpDelay`, the
semantics of `(delay.as_millis() as f64 * config.backoff_factor) as u64`:
one multiply-and-truncate step on a millisecond count. -/
structure RetryConfig where
  max_attempts : Nat
  initial_delay : Nat
  max_delay : Nat
  bumpDelay : Nat → Nat

/-- The observable outcome of `retry_with_backoff`: the value or error
returned, together with how many times the operation was invoked and the
list of back-off sleeps performed (in milliseconds, in order).  `crashed`
is the `unreachable!()` after the loop. -/
inductive RunResult (α : Type) where
  | ok (a : α) (calls : Nat) (sleeps : List Nat)
  | err (e : GeekToolsError) (calls : Nat) (sleeps : List Nat)
  | crashed (sleeps : List Nat)
  deriving DecidableEq, Repr

/-- The `for attempt in 1..=config.max_attempts` loop of
`retry_with_backoff` (`recovery.rs`).  `op i` is the result of the i-th
invocation of the operation (1-indexed); `fuel` counts the remaining loop
iterations, so the entry point passes `max_attempts` and a fuel of zero is
the `unreachable!()` after the loop.  The guard order of the source is
kept: exhaustion is checked before recoverability. -/
def retryAux {α : Type} (op : Nat → Except GeekToolsError α)
    (cfg : RetryConfig) :
    Nat → Nat → Nat → List Nat → RunResult α
  | 0, _, _, sleeps => .crashed sleeps
  | fuel + 1, attempt, delay, sleeps =>
    match op attempt with
    | .ok a => .ok a attempt sleeps
    | .error e =>
      if attempt = cfg.max_attempts then .err e attempt sleeps
      else if ¬ is_recoverable e then .err e attempt sleeps
      else
        retryAux op cfg fuel (attempt + 1)
          (min (cfg.bumpDelay delay) cfg.max_delay) (sleeps ++ [delay])

/-- `retry_with_backoff` (`recovery.rs`). -/
def retry_with_backoff {α : Type} (op : Nat → Except GeekToolsError α)
    (cfg : RetryConfig) : RunResult α :=
  retryAux op cfg cfg.max_attempts 1 cfg.initial_delay []

/-- The delay used before the (k+1)-th retry sleep: `initial_delay` for the
first sleep, then multiply-and-cap. -/
def delayAt (cfg : RetryConfig) : Nat → Nat
  | 0 => cfg.initial_delay
  | k + 1 => min (cfg.bumpDelay (delayAt cfg k)) cfg.max_delay

/-- The full back-off schedule of `n` sleeps. -/
def schedule (cfg : RetryConfig) (n : Nat) : List Nat :=
  (List.range n).map (delayAt cfg)

/-- Number of operation invocations recorded in a run result. -/
def RunResult.calls {α : Type} : RunResult α → Nat
  | .ok _ c _ => c
  | .err _ c _ => c
  | .crashed _ => 0

/-- The sleeps recorded in a run result. -/
def RunResult.sleeps {α : Type} : RunResult α → List Nat
  | .ok _ _ s => s
  | .err _ _ s => s
  | .crashed s => s

/-- A concrete two-attempt policy (doubling backoff). -/
def cfgW : RetryConfig :=
  { max_attempts := 2, initial_delay := 100, max_delay := 5000,
    bumpDelay := fun d => d * 2 }

/-- The same policy with `max_attempts = 0`. -/
def cfg0 : RetryConfig :=
  { max_attempts := 0, initial_delay := 100, max_delay := 5000,
    bumpDelay := fun d => d * 2 }

/-- An operation failing every attempt with a recoverable network error. -/
def opNet : Nat → Except GeekToolsError Nat :=
  fun _ => .error (.networkError "http://example.test")

/-- An operation failing every attempt with a fatal validation error. -/
def opFatal : Nat → Except GeekToolsError Nat :=
  fun _ => .error (.validationError "field" "message")

end Recovery

instance {ε α : Type} [DecidableEq ε] [DecidableEq α] :
    DecidableEq (Except ε α) := fun a b =>
  match a, b with
  | .ok x, .ok y => decidable_of_iff (x = y) (by simp)
  | .ok _, .error _ => .isFalse (by simp)
  | .error _, .ok _ => .isFalse (by simp)
  | .error e, .error f => decidable_of_iff (e = f) (by simp)

namespace Plugins

/-- A minimal valid manifest with id `"p"` and no scripts or deps. -/
def infoP : PluginInfo :=
  { id := "p", name := "P", version := "1.0", description := "", author := "",
    scripts := [], dependencies := [], tags := [],
    min_geektools_version := none }

/-- A valid extracted package for `infoP`. -/
def pkgP : PkgTree := { infoJson := some (some infoP), scriptsDir := some [] }

/-- The registry record of an earlier install of `infoP`. -/
def instP : InstalledPlugin :=
  { info := infoP, install_path := installPathOf "p",
    installed_at := "2024-01-01 00:00:00", enabled := true }

/-- A state in which plugin `"p"` is installed and everything is clean. -/
def sysP : Sys :=
  { plugins := [("p", instP)], registryFile := .parsed [("p", instP)],
    installDirs := [(installPathOf "p", .full pkgP)], tempDirs := [] }

/-- A pristine state: nothing installed, no registry file. -/
def sysEmpty : Sys :=
  { plugins := [], registryFile := .missing, installDirs := [], tempDirs := [] }

/-- A benign environment: temp suffix 7, no filesystem step fails. -/
def envP : Env :=
  { tempId := 7, now := "2024-01-02 00:00:00", removeDirFails := false,
    copyFails := false, setExecutableFails := false, saveFails := false }

/-- A manifest with id `"q"` declaring the (absent) dependency `"z"`. -/
def infoQ : PluginInfo :=
  { id := "q", name := "Q", version := "1.0", description := "", author := "",
    scripts := [], dependencies := ["z"], tags := [],
    min_geektools_version := none }

/-- A valid extracted package for `infoQ`. -/
def pkgQ : PkgTree := { infoJson := some (some infoQ), scriptsDir := some [] }

/-- A registry record whose manifest id `"b"` differs from the key it will
be filed under. -/
def instBad : InstalledPlugin :=
  { info := { infoP with id := "b" }, install_path := installPathOf "b",
    installed_at := "2024-01-01 00:00:00", enabled := true }

end Plugins

section Claims

open Scripts Plugins Recovery

/-- C1: the spec claims dependency resolution places every script strictly
after all scripts it (transitively) imports, with `A → B → C` resolving to
`[C, B, A]`.  The code does the opposite: Kahn's algorithm is run on edges
pointing from importer to import without reversing the result, so the
resolved (and executed) order is `[A, B, C]` — every script comes strictly
BEFORE its imports.  The `.sh`-suffix filter of `materialize_with_deps`
does behave as claimed: `data.link` is resolved but not scheduled. -/
theorem c1_execution_order_is_dependents_first :
    materialize_with_deps
      [("A.sh", "#@import B.sh\necho A"), ("B.sh", "#@import C.sh\necho B"),
       ("C.sh", "echo C")] "A.sh" = .ok ["A.sh", "B.sh", "C.sh"]
    ∧ (["A.sh", "B.sh", "C.sh"] : List String) ≠ ["C.sh", "B.sh", "A.sh"]
    ∧ resolve_dependencies
        [("A.sh", "#@import data.link\necho A"), ("data.link", "hello")]
        "A.sh" = .ok ["A.sh", "data.link"]
    ∧ materialize_with_deps
        [("A.sh", "#@import data.link\necho A"), ("data.link", "hello")]
        "A.sh" = .ok ["A.sh"] :=
  ⟨rfl, by decide, rfl, rfl⟩

/-- C3 counterexample: `topological_sort` seeds its worklist with the
zero-in-degree nodes in hash-map iteration order and pops from the end of
the `Vec`; no name-based tie-break is applied.  Two iteration orders of the
same two-node edgeless graph (the lists are permutations of each other)
yield different resolution orders, so resolution is not a function of the
graph alone and two runs can differ. -/
theorem c3_counterexample_iteration_order_dependence :
    ([("a", []), ("b", [])] : Deps).Perm [("b", []), ("a", [])]
    ∧ topological_sort [("a", []), ("b", [])]
        ≠ topological_sort [("b", []), ("a", [])] := by
  constructor
  · decide
  · decide

/-- C3 amended: the tie-break among simultaneously zero-in-degree nodes is
the reverse of container iteration order (the seed queue is built in map
iteration order and popped from the end), not a lexicographic rule; for a
fixed iteration order the result is reproducible. -/
theorem c3_amended_pick_is_last_of_iteration_order :
    topological_sort [("a", []), ("b", [])] = .ok ["b", "a"]
    ∧ topological_sort [("b", []), ("a", [])] = .ok ["a", "b"] :=
  ⟨rfl, rfl⟩

/-- C2 counterexample: constructing the manager from a present-but-corrupt
registry file does not fail; it proceeds and yields exactly the empty
registry that a missing file yields, even though the underlying load
reports an error. -/
theorem c2_counterexample_corrupt_registry_not_fatal :
    Plugins.new .corrupt = Plugins.new .missing
    ∧ Plugins.new .corrupt = []
    ∧ load_installed_plugins .corrupt = .error .registryParseFailed :=
  ⟨rfl, rfl, rfl⟩

/-- C2 amended: `load_installed_plugins` does report an error for a
present-but-unparsable registry file, but `PluginManager::new` swallows
that error (printing a warning) and proceeds with an empty registry; a
missing file yields an empty registry, and a parsable file is taken
verbatim. -/
theorem c2_amended_load_error_swallowed :
    load_installed_plugins .missing = .ok []
    ∧ load_installed_plugins .corrupt = .error .registryParseFailed
    ∧ Plugins.new .missing = []
    ∧ Plugins.new .corrupt = []
    ∧ ∀ r : Plugins.Registry, Plugins.new (.parsed r) = r :=
  ⟨rfl, rfl, rfl, rfl, fun _ => rfl⟩

/-- C5: on the already-installed failure path (as on every failure path
after extraction) `install_plugin` returns with the temporary extraction
directory still on disk; only the success path removes it.  The first two
conjuncts evaluate the failing run, the last two the successful run for
contrast. -/
theorem c5_temp_dir_left_behind_on_failure :
    (install_plugin envP (.ok pkgP) sysP).1 = .error (.alreadyInstalled "p")
    ∧ (install_plugin envP (.ok pkgP) sysP).2.tempDirs = [(7, some pkgP)]
    ∧ (install_plugin envP (.ok pkgP) sysEmpty).1 = .ok "p"
    ∧ (install_plugin envP (.ok pkgP) sysEmpty).2.tempDirs = [] :=
  ⟨rfl, rfl, rfl, rfl⟩

/-- `List.lookup` only returns pairs stored in the association list. -/
theorem lookup_mem {k : String} {v : InstalledPlugin} :
    ∀ {l : Plugins.Registry}, List.lookup k l = some v → (k, v) ∈ l := by
  intro l
  induction l with
  | nil => intro h; cases h
  | cons p rest ih =>
    intro h
    rw [List.lookup] at h
    by_cases hk : k == p.1
    · simp [hk] at h
      have hk' : k = p.1 := eq_of_beq hk
      have hp : p = (k, v) := by cases p; simp_all
      rw [hp]
      exact List.mem_cons_self _ _
    · simp [hk] at h
      exact List.mem_cons_of_mem _ (ih h)

/-- `insertReg` preserves the key-equals-manifest-id invariant when the
inserted record's id is the key. -/
theorem reginv_insert {r : Plugins.Registry} {k : String}
    {v : InstalledPlugin} (h : RegInv r) (hk : v.info.id = k) :
    RegInv (insertReg r k v) := by
  unfold insertReg
  split
  · intro p hp
    rcases List.mem_map.mp hp with ⟨q, hq, hpq⟩
    by_cases hqk : q.1 == k
    · simp [hqk] at hpq
      subst hpq
      rw [show q.1 = k from eq_of_beq hqk]
      exact hk
    · simp [hqk] at hpq
      subst hpq
      exact h q hq
  · intro p hp
    rcases List.mem_append.mp hp with hL | hR
    · exact h p hL
    · simp at hR
      subst hR
      simpa using hk

/-- `removeReg` preserves the invariant (it only drops an entry). -/
theorem reginv_remove {r : Plugins.Registry} {k : String} (h : RegInv r) :
    RegInv (removeReg r k) := by
  intro p hp
  exact h p ((List.eraseP_sublist _).mem hp)

/-- `install_plugin` preserves the registry invariant on every path. -/
theorem reginv_install (env : Env) (src : ArchiveSrc) (s : Plugins.Sys)
    (h : RegInv s.plugins) : RegInv (install_plugin env src s).2.plugins := by
  cases src with
  | absent => exact h
  | corrupt => exact h
  | ok t =>
    dsimp only [install_plugin]
    split
    · exact h
    · split
      · exact h
      · split
        · exact h
        · split
          · exact h
          · split
            · exact h
            · split
              · exact h
              · split
                · exact reginv_insert h rfl
                · exact reginv_insert h rfl

/-- `uninstall_plugin` preserves the registry invariant on every path. -/
theorem reginv_uninstall (env : Env) (id : String) (s : Plugins.Sys)
    (h : RegInv s.plugins) :
    RegInv (uninstall_plugin env id s).2.plugins := by
  dsimp only [uninstall_plugin]
  split
  · exact h
  · split
    · exact h
    · split
      · exact reginv_remove h
      · exact reginv_remove h

/-- `toggle_plugin` preserves the registry invariant on every path. -/
theorem reginv_toggle (env : Env) (id : String) (b : Bool) (s : Plugins.Sys)
    (h : RegInv s.plugins) :
    RegInv (toggle_plugin env id b s).2.plugins := by
  dsimp only [toggle_plugin]
  split
  · exact h
  · next p hp =>
    have hid : p.info.id = id := h (id, p) (lookup_mem hp)
    split
    · exact reginv_insert h hid
    · exact reginv_insert h hid

/-- C6 counterexample: loading deserializes the registry file verbatim with
no validation, so a file entry whose key `"a"` differs from its record's
manifest id `"b"` violates the invariant right after construction. -/
theorem c6_counterexample_load_does_not_validate_keys :
    ¬ RegInv (Plugins.new (.parsed [("a", instBad)])) := by
  intro h
  have hmem : ("a", instBad) ∈ Plugins.new (.parsed [("a", instBad)]) :=
    List.mem_singleton.mpr rfl
  exact absurd (h ("a", instBad) hmem) (by decide)

/-- C6 amended: the key-equals-manifest-id invariant is preserved by
install, uninstall and toggle on all their paths, and holds after
construction provided the registry file's own content satisfies it
(load performs no key validation of its own). -/
theorem c6_amended_invariant_preserved_by_operations :
    (∀ r : Plugins.Registry, RegInv r → RegInv (Plugins.new (.parsed r)))
    ∧ RegInv (Plugins.new .missing)
    ∧ RegInv (Plugins.new .corrupt)
    ∧ (∀ (env : Env) (src : ArchiveSrc) (s : Plugins.Sys),
        RegInv s.plugins → RegInv (install_plugin env src s).2.plugins)
    ∧ (∀ (env : Env) (id : String) (s : Plugins.Sys),
        RegInv s.plugins → RegInv (uninstall_plugin env id s).2.plugins)
    ∧ (∀ (env : Env) (id : String) (b : Bool) (s : Plugins.Sys),
        RegInv s.plugins → RegInv (toggle_plugin env id b s).2.plugins) :=
  by
  refine ⟨fun _ h => h, ?_, ?_,
    reginv_install, reginv_uninstall, reginv_toggle⟩
  · intro p hp
    cases hp
  · intro p hp
    cases hp

/-- C6 witness: the preservation statements applied to the concrete
one-plugin state. -/
theorem c6_witness_concrete_operations :
    RegInv Plugins.sysP.plugins
    ∧ RegInv (install_plugin envP (.ok pkgQ) sysP).2.plugins
    ∧ RegInv (uninstall_plugin envP "p" sysP).2.plugins
    ∧ RegInv (toggle_plugin envP "p" false sysP).2.plugins
    ∧ RegInv (Plugins.new (.parsed sysP.plugins)) := by
  have hinv : RegInv Plugins.sysP.plugins := by
    intro p hp
    have hp' : p = ("p", instP) := by simpa [Plugins.sysP] using hp
    subst hp'
    rfl
  exact ⟨hinv,
    c6_amended_invariant_preserved_by_operations.2.2.2.1 envP (.ok pkgQ) sysP hinv,
    c6_amended_invariant_preserved_by_operations.2.2.2.2.1 envP "p" sysP hinv,
    c6_amended_invariant_preserved_by_operations.2.2.2.2.2 envP "p" false sysP hinv,
    c6_amended_invariant_preserved_by_operations.1 sysP.plugins hinv⟩

/-- C7: installing an archive whose manifest id is already registered fails
with the already-installed error, and the final state equals the initial
state except for the leaked temp directory: the in-memory registry, the
registry file and the install directories are untouched. -/
theorem c7_already_installed_no_mutation (env : Env) (t : PkgTree)
    (info : PluginInfo) (s : Plugins.Sys)
    (hv : validate_plugin_package t = .ok info)
    (hk : containsKey s.plugins info.id = true) :
    install_plugin env (.ok t) s =
      (.error (.alreadyInstalled info.id),
        { s with tempDirs := (env.tempId, some t) :: s.tempDirs }) := by
  simp [install_plugin, hv, hk]

/-- C7 witness: re-installing the already-installed plugin `"p"`. -/
theorem c7_witness_reinstall_p :
    install_plugin envP (.ok pkgP) sysP =
      (.error (.alreadyInstalled "p"),
        { sysP with tempDirs := [(7, some pkgP)] }) :=
  c7_already_installed_no_mutation envP pkgP infoP sysP rfl rfl

/-- A missing-dependency error from `check_dependencies` really names a
declared dependency that is absent from the registry. -/
theorem check_dependencies_error_spec (r : Plugins.Registry) :
    ∀ (l : List String) (d : String),
    check_dependencies r l = .error (.missingDependency d) →
    d ∈ l ∧ containsKey r d = false := by
  intro l
  induction l with
  | nil => intro d h; cases h
  | cons x rest ih =>
    intro d h
    rw [check_dependencies] at h
    by_cases hx : containsKey r x = true
    · simp [hx] at h
      rcases ih d h with ⟨h1, h2⟩
      exact ⟨.tail _ h1, h2⟩
    · simp [hx] at h
      subst h
      exact ⟨List.mem_cons_self _ _, by simpa using hx⟩

/-- C8: installing an archive that declares a dependency absent from the
registry fails with the missing-dependency error naming such a dependency,
before any files are copied: the final state equals the initial state
except for the leaked temp directory, so no install directory is created
and no registry entry is added or persisted. -/
theorem c8_missing_dependency_no_mutation (env : Env) (t : PkgTree)
    (info : PluginInfo) (s : Plugins.Sys) (d : String)
    (hv : validate_plugin_package t = .ok info)
    (hk : containsKey s.plugins info.id = false)
    (hd : check_dependencies s.plugins info.dependencies
            = .error (.missingDependency d)) :
    (d ∈ info.dependencies ∧ containsKey s.plugins d = false)
    ∧ install_plugin env (.ok t) s =
        (.error (.missingDependency d),
          { s with tempDirs := (env.tempId, some t) :: s.tempDirs }) := by
  refine ⟨check_dependencies_error_spec _ _ _ hd, ?_⟩
  simp [install_plugin, hv, hk, hd]

/-- C8 witness: installing plugin `"q"` (depending on absent `"z"`) into
the pristine state. -/
theorem c8_witness_install_q_missing_z :
    ("z" ∈ infoQ.dependencies ∧ containsKey sysEmpty.plugins "z" = false)
    ∧ install_plugin envP (.ok pkgQ) sysEmpty =
        (.error (.missingDependency "z"),
          { sysEmpty with tempDirs := [(7, some pkgQ)] }) :=
  c8_missing_dependency_no_mutation envP pkgQ infoQ sysEmpty "z" rfl rfl rfl

/-- Unfolding one step of the back-off schedule. -/
theorem schedule_succ (cfg : RetryConfig) (n : Nat) :
    schedule cfg (n + 1) = schedule cfg n ++ [delayAt cfg n] := by
  simp [schedule, List.range_succ]

/-- Run analysis for the retry loop: starting at any attempt with the
matching delay and sleep trace, the loop either returns the value of some
attempt `c ≤ max_attempts`, or the error of attempt `c` where `c` is the
last attempt or the error is fatal; in both cases the recorded sleep trace
is the back-off schedule of the first `c - 1` delays. -/
theorem retryAux_run {α : Type} (cfg : RetryConfig)
    (op : Nat → Except GeekToolsError α) :
    ∀ (fuel attempt : Nat), fuel + attempt = cfg.max_attempts + 1 →
    1 ≤ attempt → attempt ≤ cfg.max_attempts →
    (∃ a c, retryAux op cfg fuel attempt (delayAt cfg (attempt - 1))
          (schedule cfg (attempt - 1)) = .ok a c (schedule cfg (c - 1))
        ∧ attempt ≤ c ∧ c ≤ cfg.max_attempts ∧ op c = .ok a)
    ∨ (∃ e c, retryAux op cfg fuel attempt (delayAt cfg (attempt - 1))
          (schedule cfg (attempt - 1)) = .err e c (schedule cfg (c - 1))
        ∧ attempt ≤ c ∧ c ≤ cfg.max_attempts ∧ op c = .error e
        ∧ (c = cfg.max_attempts ∨ is_recoverable e = false)) := by
  intro fuel
  induction fuel with
  | zero => intro attempt h1 h2 h3; omega
  | succ fuel ih =>
    intro attempt h1 h2 h3
    obtain ⟨k, rfl⟩ : ∃ k, attempt = k + 1 := ⟨attempt - 1, by omega⟩
    simp only [retryAux, Nat.add_sub_cancel]
    cases hop : op (k + 1) with
    | ok a =>
      left
      exact ⟨a, k + 1, by simp, le_refl _, h3, hop⟩
    | error e =>
      by_cases hmax : k + 1 = cfg.max_attempts
      · right
        refine ⟨e, k + 1, ?_, le_refl _, h3, hop, .inl hmax⟩
        dsimp only
        rw [if_pos hmax]
        simp
      · by_cases hrec : is_recoverable e = true
        · have hdelay : min (cfg.bumpDelay (delayAt cfg k)) cfg.max_delay
              = delayAt cfg (k + 1) := rfl
          have hsched : schedule cfg k ++ [delayAt cfg k]
              = schedule cfg (k + 1) := (schedule_succ cfg k).symm
          have hrun := ih (k + 2) (by omega) (by omega) (by omega)
          have hd2 : delayAt cfg (k + 2 - 1) = delayAt cfg (k + 1) := by
            norm_num
          have hs2 : schedule cfg (k + 2 - 1) = schedule cfg (k + 1) := by
            norm_num
          rw [hd2, hs2] at hrun
          dsimp only
          rw [if_neg hmax, if_neg (not_not_intro hrec), hdelay, hsched]
          rcases hrun with ⟨a, c, hr, hc1, hc2, hc3⟩ |
            ⟨e', c, hr, hc1, hc2, hc3, hc4⟩
          · left
            exact ⟨a, c, hr, by omega, hc2, hc3⟩
          · right
            exact ⟨e', c, hr, by omega, hc2, hc3, hc4⟩
        · right
          refine ⟨e, k + 1, ?_, le_refl _, h3, hop, .inr (by simpa using hrec)⟩
          dsimp only
          rw [if_neg hmax, if_pos hrec]
          simp

/-- C9: for any policy with at least one attempt: a fatal first failure is
returned after exactly one invocation with no sleeps; the operation is
invoked at most `max_attempts` times; the sleeps performed are exactly the
exponential back-off schedule (`initial_delay`, then multiply-and-truncate
by `backoff_factor` capped at `max_delay`) of length one less than the
number of invocations; and when every attempt fails (recoverably before
the last), the error of attempt `max_attempts` is returned. -/
theorem c9_retry_backoff_contract (cfg : RetryConfig) {α : Type}
    (op : Nat → Except GeekToolsError α) (h : 1 ≤ cfg.max_attempts) :
    (∀ e, op 1 = .error e → is_recoverable e = false →
        retry_with_backoff op cfg = .err e 1 [])
    ∧ (retry_with_backoff op cfg).calls ≤ cfg.max_attempts
    ∧ (retry_with_backoff op cfg).sleeps
        = schedule cfg ((retry_with_backoff op cfg).calls - 1)
    ∧ ((∀ i, 1 ≤ i → i ≤ cfg.max_attempts →
          ∃ e, op i = .error e ∧
            (i < cfg.max_attempts → is_recoverable e = true)) →
        ∃ e, op cfg.max_attempts = .error e ∧
          retry_with_backoff op cfg
            = .err e cfg.max_attempts (schedule cfg (cfg.max_attempts - 1))) := by
  have d0 : delayAt cfg 0 = cfg.initial_delay := rfl
  have s0 : schedule cfg 0 = [] := by simp [schedule]
  have hrb : retry_with_backoff op cfg
      = retryAux op cfg cfg.max_attempts 1 cfg.initial_delay [] := rfl
  have R := retryAux_run cfg op cfg.max_attempts 1 (by omega) (le_refl 1) h
  rw [show (1 : Nat) - 1 = 0 from rfl, d0, s0, ← hrb] at R
  refine ⟨?_, ?_, ?_, ?_⟩
  · intro e hop hrec
    obtain ⟨m, hm⟩ : ∃ m, cfg.max_attempts = m + 1 :=
      ⟨cfg.max_attempts - 1, by omega⟩
    rw [hrb, hm]
    simp only [retryAux]
    rw [hop]
    dsimp only
    by_cases h1 : (1 : Nat) = cfg.max_attempts
    · rw [if_pos h1]
    · rw [if_neg h1, if_pos (by simp [hrec])]
  · rcases R with ⟨a, c, hr, _, hc2, _⟩ | ⟨e, c, hr, _, hc2, _, _⟩ <;>
      rw [hr] <;> exact hc2
  · rcases R with ⟨a, c, hr, _, _, _⟩ | ⟨e, c, hr, _, _, _, _⟩ <;>
      rw [hr] <;> rfl
  · intro hall
    rcases R with ⟨a, c, hr, hc1, hc2, hc3⟩ | ⟨e, c, hr, hc1, hc2, hc3, hc4⟩
    · rcases hall c hc1 hc2 with ⟨e, he, _⟩
      rw [hc3] at he
      cases he
    · have hcmax : c = cfg.max_attempts := by
        rcases hc4 with hc | hc
        · exact hc
        · by_contra hne
          rcases hall c hc1 hc2 with ⟨e', he', himp⟩
          rw [hc3] at he'
          injection he' with he''
          subst he''
          rw [himp (by omega)] at hc
          cases hc
      subst hcmax
      exact ⟨e, hc3, hr⟩

/-- C9 witness: a persistently failing network operation under the
two-attempt policy exhausts both attempts and returns the last error with
one sleep; a fatal validation error returns after one invocation. -/
theorem c9_witness_two_attempts :
    (∃ e, opNet 2 = .error e ∧
      retry_with_backoff opNet cfgW = .err e 2 (schedule cfgW 1))
    ∧ retry_with_backoff opFatal cfgW
        = .err (.validationError "field" "message") 1 [] :=
  ⟨(c9_retry_backoff_contract cfgW opNet (by decide)).2.2.2
      (fun _ _ _ => ⟨.networkError "http://example.test", rfl, fun _ => rfl⟩),
   (c9_retry_backoff_contract cfgW opFatal (by decide)).1
      (.validationError "field" "message") rfl rfl⟩

/-- C10: with `max_attempts ≥ 1` the retry loop always returns a value or
an error and the trailing `unreachable!()` is never hit, whereas
`max_attempts = 0` skips the loop entirely and reaches it (a panic). -/
theorem c10_unreachable_iff_zero_attempts {α : Type} (cfg : RetryConfig)
    (op : Nat → Except GeekToolsError α) :
    (1 ≤ cfg.max_attempts →
      ∀ s : List Nat, retry_with_backoff op cfg ≠ .crashed s)
    ∧ (cfg.max_attempts = 0 → retry_with_backoff op cfg = .crashed []) := by
  constructor
  · intro h s hcrash
    have d0 : delayAt cfg 0 = cfg.initial_delay := rfl
    have s0 : schedule cfg 0 = [] := by simp [schedule]
    have hrb : retry_with_backoff op cfg
        = retryAux op cfg cfg.max_attempts 1 cfg.initial_delay [] := rfl
    have R := retryAux_run cfg op cfg.max_attempts 1 (by omega) (le_refl 1) h
    rw [show (1 : Nat) - 1 = 0 from rfl, d0, s0, ← hrb] at R
    rcases R with ⟨a, c, hr, _, _, _⟩ | ⟨e, c, hr, _, _, _, _⟩ <;>
      rw [hr] at hcrash <;> cases hcrash
  · intro h0
    have hrb : retry_with_backoff op cfg
        = retryAux op cfg cfg.max_attempts 1 cfg.initial_delay [] := rfl
    rw [hrb, h0]
    rfl

/-- C10 witness: the two-attempt policy never crashes on the failing
network operation; the zero-attempt policy crashes immediately. -/
theorem c10_witness_zero_vs_two :
    retry_with_backoff opNet cfgW ≠ .crashed []
    ∧ retry_with_backoff opNet cfg0 = .crashed [] :=
  ⟨(c10_unreachable_iff_zero_attempts cfgW opNet).1 (by decide) [],
   (c10_unreachable_iff_zero_attempts cfg0 opNet).2 rfl⟩

namespace Scripts

theorem Reaches.push {deps : Deps} {a b c : String}
    (h : Reaches deps a b) (e : Edge deps b c) : Reaches deps a c := by
  induction h with
  | single e' => exact .cons e' (.single e)
  | cons e' _ ih => exact .cons e' (ih e)

theorem lookup_mem_pair {β : Type} {k : String} {v : β} :
    ∀ {l : List (String × β)}, List.lookup k l = some v → (k, v) ∈ l := by
  intro l
  induction l with
  | nil => intro h; cases h
  | cons p rest ih =>
    intro h
    rw [List.lookup] at h
    by_cases hk : k == p.1
    · simp [hk] at h
      have hk' : k = p.1 := eq_of_beq hk
      have hp : p = (k, v) := by cases p; simp_all
      rw [hp]
      exact List.mem_cons_self _ _
    · simp [hk] at h
      exact List.mem_cons_of_mem _ (ih h)

theorem edge_mem_keys {deps : Deps} {a b : String} (h : Edge deps a b) :
    a ∈ deps.map Prod.fst := by
  unfold Edge childrenOf at h
  cases hl : List.lookup a deps with
  | none => rw [hl] at h; cases h
  | some cs =>
    exact List.mem_map.mpr ⟨(a, cs), lookup_mem_pair hl, rfl⟩

theorem childrenOf_subset_univ {deps : Deps} {a b : String}
    (h : Edge deps a b) : b ∈ univNodes deps := by
  unfold Edge childrenOf at h
  cases hl : List.lookup a deps with
  | none => rw [hl] at h; cases h
  | some cs =>
    rw [hl] at h
    unfold univNodes
    rw [List.mem_dedup]
    exact List.mem_append_right _
      (List.mem_flatMap.mpr ⟨(a, cs), lookup_mem_pair hl, h⟩)

theorem keys_subset_univ {deps : Deps} {p : String × List String}
    (h : p ∈ deps) : p.1 ∈ univNodes deps := by
  unfold univNodes
  rw [List.mem_dedup]
  exact List.mem_append_left _ (List.mem_map.mpr ⟨p, h, rfl⟩)


theorem chain_error_sound (deps : Deps) (fuel : Nat)
    (ihE : ∀ node visiting visited n,
      visitF deps fuel node visiting visited = some (.error n) →
      (∀ x ∈ visiting, Reaches deps x node) → Reaches deps n n) :
    ∀ (cs : List String) (visiting visited : List String) (n : String),
    chainVisit (fun v c => visitF deps fuel c visiting v) cs visited
      = some (.error n) →
    (∀ c ∈ cs, ∀ x ∈ visiting, Reaches deps x c) →
    Reaches deps n n := by
  intro cs
  induction cs with
  | nil => intro visiting visited n h; rw [chainVisit] at h; cases h
  | cons c cs ihc =>
    intro visiting visited n h hcs
    rw [chainVisit] at h
    cases hstep : visitF deps fuel c visiting visited with
    | none => rw [hstep] at h; cases h
    | some r =>
      rw [hstep] at h
      cases r with
      | error e =>
        have he : e = n := by simpa using h
        subst he
        exact ihE c visiting visited e hstep (hcs c (List.mem_cons_self _ _))
      | ok v =>
        exact ihc visiting v n h
          (fun c' hc' => hcs c' (List.mem_cons_of_mem _ hc'))

theorem visitF_error_sound (deps : Deps) :
    ∀ (fuel : Nat) (node : String) (visiting visited : List String)
      (n : String),
    visitF deps fuel node visiting visited = some (.error n) →
    (∀ x ∈ visiting, Reaches deps x node) →
    Reaches deps n n := by
  intro fuel
  induction fuel with
  | zero => intro node visiting visited n h; cases h
  | succ fuel ih =>
    intro node visiting visited n h hinv
    rw [visitF] at h
    by_cases h1 : node ∈ visiting
    · rw [if_pos h1] at h
      have hn : node = n := by simpa using h
      subst hn
      exact hinv node h1
    · rw [if_neg h1] at h
      by_cases h2 : node ∈ visited
      · rw [if_pos h2] at h
        simp at h
      · rw [if_neg h2] at h
        cases hchain : chainVisit
            (fun v c => visitF deps fuel c (node :: visiting) v)
            (childrenOf deps node) visited with
        | none => rw [hchain] at h; simp at h
        | some r =>
          rw [hchain] at h
          cases r with
          | ok v => simp at h
          | error e =>
            have he : e = n := by simpa using h
            subst he
            refine chain_error_sound deps fuel ih (childrenOf deps node)
              (node :: visiting) visited e hchain ?_
            intro c hc x hx
            rcases List.mem_cons.mp hx with hx | hx
            · subst hx
              exact .single hc
            · exact (hinv x hx).push hc


theorem chain_ok_spec (deps : Deps) (fuel : Nat)
    (ihF : ∀ node visiting visited v,
      visitF deps fuel node visiting visited = some (.ok v) →
      visited.IsSuffix v ∧ node ∈ v
      ∧ (∀ x ∈ v, x ∈ visited ∨ x ∉ visiting)
      ∧ (visited.Nodup → v.Nodup)
      ∧ (ClosedList deps visited → ClosedList deps v)) :
    ∀ (cs : List String) (visiting visited v : List String),
    chainVisit (fun v c => visitF deps fuel c visiting v) cs visited
      = some (.ok v) →
    visited.IsSuffix v ∧ (∀ c ∈ cs, c ∈ v)
    ∧ (∀ x ∈ v, x ∈ visited ∨ x ∉ visiting)
    ∧ (visited.Nodup → v.Nodup)
    ∧ (ClosedList deps visited → ClosedList deps v) := by
  intro cs
  induction cs with
  | nil =>
    intro visiting visited v h
    rw [chainVisit] at h
    have hv : visited = v := by simpa using h
    subst hv
    exact ⟨List.suffix_refl _, by simp, fun x hx => .inl hx, id, id⟩
  | cons c cs ihc =>
    intro visiting visited v h
    rw [chainVisit] at h
    cases hstep : visitF deps fuel c visiting visited with
    | none => rw [hstep] at h; cases h
    | some r =>
      rw [hstep] at h
      cases r with
      | error e => cases h
      | ok v₁ =>
        obtain ⟨hs₁, hm₁, hf₁, hn₁, hc₁⟩ := ihF c visiting visited v₁ hstep
        obtain ⟨hs₂, hm₂, hf₂, hn₂, hc₂⟩ := ihc visiting v₁ v h
        refine ⟨hs₁.trans hs₂, ?_, ?_, fun hn => hn₂ (hn₁ hn),
          fun hc' => hc₂ (hc₁ hc')⟩
        · intro c' hc'
          rcases List.mem_cons.mp hc' with hh | hh
          · subst hh
            exact hs₂.subset hm₁
          · exact hm₂ c' hh
        · intro x hx
          rcases hf₂ x hx with hx₁ | hx₁
          · exact hf₁ x hx₁
          · exact .inr hx₁


theorem visitF_ok_spec (deps : Deps) :
    ∀ (fuel : Nat) (node : String) (visiting visited v : List String),
    visitF deps fuel node visiting visited = some (.ok v) →
    visited.IsSuffix v ∧ node ∈ v
    ∧ (∀ x ∈ v, x ∈ visited ∨ x ∉ visiting)
    ∧ (visited.Nodup → v.Nodup)
    ∧ (ClosedList deps visited → ClosedList deps v) := by
  intro fuel
  induction fuel with
  | zero => intro node visiting visited v h; cases h
  | succ fuel ih =>
    intro node visiting visited v h
    rw [visitF] at h
    by_cases h1 : node ∈ visiting
    · rw [if_pos h1] at h
      cases h
    · rw [if_neg h1] at h
      by_cases h2 : node ∈ visited
      · rw [if_pos h2] at h
        have hv : visited = v := by simpa using h
        subst hv
        exact ⟨List.suffix_refl _, h2, fun x hx => .inl hx, id, id⟩
      · rw [if_neg h2] at h
        cases hchain : chainVisit
            (fun v c => visitF deps fuel c (node :: visiting) v)
            (childrenOf deps node) visited with
        | none => rw [hchain] at h; cases h
        | some r =>
          rw [hchain] at h
          cases r with
          | error e => cases h
          | ok v' =>
            have hv : node :: v' = v := by simpa using h
            subst hv
            obtain ⟨hs, hm, hf, hn, hc⟩ :=
              chain_ok_spec deps fuel (ih) (childrenOf deps node)
                (node :: visiting) visited v' hchain
            have hnode : node ∉ v' := by
              intro hmem
              rcases hf node hmem with hx | hx
              · exact h2 hx
              · exact hx (List.mem_cons_self _ _)
            refine ⟨hs.trans (List.suffix_cons _ _), List.mem_cons_self _ _,
              ?_, ?_, ?_⟩
            · intro x hx
              rcases List.mem_cons.mp hx with hx₁ | hx₁
              · subst hx₁
                exact .inr h1
              · rcases hf x hx₁ with hx₂ | hx₂
                · exact .inl hx₂
                · exact .inr (fun hmem => hx₂ (List.mem_cons_of_mem _ hmem))
            · intro hnd
              exact List.nodup_cons.mpr ⟨hnode, hn hnd⟩
            · intro hcl
              have hcl' : ClosedList deps v' := hc hcl
              intro w₁ n w₂ hw c hcc
              cases w₁ with
              | nil =>
                simp at hw
                obtain ⟨hw₁, hw₂⟩ := hw
                subst hw₁
                subst hw₂
                exact hm c hcc
              | cons y w₁ =>
                have hw' : v' = w₁ ++ n :: w₂ := by
                  injection hw with _ hw'
                exact hcl' w₁ n w₂ hw' c hcc


theorem goKeys_error_sound (deps : Deps) :
    ∀ (ks : List (String × List String)) (visited : List String) (n : String),
    goKeys deps ks visited = some (.error n) → Reaches deps n n := by
  intro ks
  induction ks with
  | nil => intro visited n h; cases h
  | cons p rest ih =>
    intro visited n h
    rw [goKeys] at h
    by_cases h1 : p.1 ∈ visited
    · rw [if_pos h1] at h
      exact ih visited n h
    · rw [if_neg h1] at h
      cases hv : visitF deps ((univNodes deps).length + 1) p.1 [] visited with
      | none => rw [hv] at h; cases h
      | some r =>
        rw [hv] at h
        cases r with
        | error e =>
          have he : e = n := by simpa using h
          subst he
          exact visitF_error_sound deps _ p.1 [] visited e hv (by simp)
        | ok v => exact ih v n h

theorem goKeys_ok_spec (deps : Deps) :
    ∀ (ks : List (String × List String)) (visited W : List String),
    goKeys deps ks visited = some (.ok W) →
    visited.IsSuffix W ∧ (∀ p ∈ ks, p.1 ∈ W)
    ∧ (visited.Nodup → W.Nodup)
    ∧ (ClosedList deps visited → ClosedList deps W) := by
  intro ks
  induction ks with
  | nil =>
    intro visited W h
    rw [goKeys] at h
    have hv : visited = W := by simpa using h
    subst hv
    exact ⟨List.suffix_refl _, by simp, id, id⟩
  | cons p rest ih =>
    intro visited W h
    rw [goKeys] at h
    by_cases h1 : p.1 ∈ visited
    · obtain ⟨hs, hm, hn, hc⟩ := ih visited W (by rwa [if_pos h1] at h)
      refine ⟨hs, ?_, hn, hc⟩
      intro q hq
      rcases List.mem_cons.mp hq with hq | hq
      · subst hq
        exact hs.subset h1
      · exact hm q hq
    · rw [if_neg h1] at h
      cases hv : visitF deps ((univNodes deps).length + 1) p.1 [] visited with
      | none => rw [hv] at h; cases h
      | some r =>
        rw [hv] at h
        cases r with
        | error e => cases h
        | ok v =>
          obtain ⟨hs₁, hm₁, _, hn₁, hc₁⟩ :=
            visitF_ok_spec deps _ p.1 [] visited v hv
          obtain ⟨hs₂, hm₂, hn₂, hc₂⟩ := ih v W h
          refine ⟨hs₁.trans hs₂, ?_, fun hn => hn₂ (hn₁ hn),
            fun hc => hc₂ (hc₁ hc)⟩
          intro q hq
          rcases List.mem_cons.mp hq with hq | hq
          · subst hq
            exact hs₂.subset hm₁
          · exact hm₂ q hq

theorem nodup_subset_length {l u : List String} (hn : l.Nodup)
    (hs : l ⊆ u) : l.length ≤ u.length := by
  calc l.length = l.toFinset.card := (List.toFinset_card_of_nodup hn).symm
    _ ≤ u.toFinset.card := Finset.card_le_card (fun x hx => by
        rw [List.mem_toFinset] at hx ⊢
        exact hs hx)
    _ ≤ u.length := List.toFinset_card_le u

theorem visitF_fuel_sufficient (deps : Deps) :
    ∀ (fuel : Nat) (node : String) (visiting visited : List String),
    node ∈ univNodes deps → (∀ x ∈ visiting, x ∈ univNodes deps) →
    visiting.Nodup → (univNodes deps).length < fuel + visiting.length →
    visitF deps fuel node visiting visited ≠ none := by
  intro fuel
  induction fuel with
  | zero =>
    intro node visiting visited hn hsub hnd hlt
    exact absurd (nodup_subset_length hnd hsub) (by omega)
  | succ fuel ih =>
    intro node visiting visited hn hsub hnd hlt
    rw [visitF]
    by_cases h1 : node ∈ visiting
    · rw [if_pos h1]
      simp
    · rw [if_neg h1]
      by_cases h2 : node ∈ visited
      · rw [if_pos h2]
        simp
      · rw [if_neg h2]
        have hchain : ∀ (cs : List String), (∀ c ∈ cs, c ∈ univNodes deps) →
            ∀ visited', chainVisit
              (fun v c => visitF deps fuel c (node :: visiting) v)
              cs visited' ≠ none := by
          intro cs
          induction cs with
          | nil => intro _ visited' h; rw [chainVisit] at h; cases h
          | cons c cs ihc =>
            intro hcs visited' h
            rw [chainVisit] at h
            cases hstep : visitF deps fuel c (node :: visiting) visited' with
            | none =>
              refine ih c (node :: visiting) visited'
                (hcs c (List.mem_cons_self _ _)) ?_ ?_ ?_ hstep
              · intro x hx
                rcases List.mem_cons.mp hx with hx | hx
                · subst hx; exact hn
                · exact hsub x hx
              · exact List.nodup_cons.mpr ⟨h1, hnd⟩
              · simp only [List.length_cons]
                omega
            | some r =>
              rw [hstep] at h
              cases r with
              | error e => cases h
              | ok v =>
                exact ihc (fun c' hc' => hcs c' (List.mem_cons_of_mem _ hc'))
                  v h
        cases hres : chainVisit
            (fun v c => visitF deps fuel c (node :: visiting) v)
            (childrenOf deps node) visited with
        | none =>
          exact absurd hres (hchain (childrenOf deps node)
            (fun c hc => childrenOf_subset_univ hc) visited)
        | some r =>
          cases r with
          | error e => simp
          | ok v => simp

theorem goKeys_not_none (deps : Deps) :
    ∀ (ks : List (String × List String)) (visited : List String),
    (∀ p ∈ ks, p.1 ∈ univNodes deps) → goKeys deps ks visited ≠ none := by
  intro ks
  induction ks with
  | nil => intro visited _ h; rw [goKeys] at h; cases h
  | cons p rest ih =>
    intro visited hks h
    rw [goKeys] at h
    by_cases h1 : p.1 ∈ visited
    · rw [if_pos h1] at h
      exact ih visited (fun q hq => hks q (List.mem_cons_of_mem _ hq)) h
    · rw [if_neg h1] at h
      cases hv : visitF deps ((univNodes deps).length + 1) p.1 [] visited with
      | none =>
        refine absurd hv (visitF_fuel_sufficient deps _ p.1 [] visited
          (hks p (List.mem_cons_self _ _)) (by simp) List.nodup_nil ?_)
        simp
      | some r =>
        rw [hv] at h
        cases r with
        | error e => cases h
        | ok v => exact ih v (fun q hq => hks q (List.mem_cons_of_mem _ hq)) h


theorem indexOf_append_self {a : String} {w₁ w₂ : List String}
    (h : a ∉ w₁) : List.indexOf a (w₁ ++ a :: w₂) = w₁.length := by
  induction w₁ with
  | nil => simp [List.indexOf_cons_self]
  | cons y w₁ ih =>
    have hy : y ≠ a := fun hya => h (by simp [hya])
    have h' : a ∉ w₁ := fun ha => h (List.mem_cons_of_mem _ ha)
    simp only [List.cons_append, List.indexOf_cons_ne _ hy, ih h',
      List.length_cons]

theorem indexOf_append_gt {a b : String} {w₁ w₂ : List String}
    (hb1 : b ∉ w₁) (hba : b ≠ a) :
    w₁.length < List.indexOf b (w₁ ++ a :: w₂) := by
  induction w₁ with
  | nil =>
    simp only [List.nil_append, List.length_nil]
    rw [List.indexOf_cons_ne _ (Ne.symm hba)]
    omega
  | cons y w₁ ih =>
    have hy : y ≠ b := fun hyb => hb1 (by simp [hyb])
    have h' : b ∉ w₁ := fun hb => hb1 (List.mem_cons_of_mem _ hb)
    simp only [List.cons_append, List.indexOf_cons_ne _ hy,
      List.length_cons]
    have := ih h'
    omega

theorem closed_edge_lt {deps : Deps} {W : List String}
    (hC : ClosedList deps W) (hN : W.Nodup) {a b : String}
    (he : Edge deps a b) (ha : a ∈ W) :
    b ∈ W ∧ List.indexOf a W < List.indexOf b W := by
  obtain ⟨w₁, w₂, hw⟩ := List.append_of_mem ha
  subst hw
  have hmid := List.nodup_middle.mp hN
  have hanot : a ∉ w₁ ++ w₂ := (List.nodup_cons.mp hmid).1
  have ha1 : a ∉ w₁ := fun h => hanot (List.mem_append_left _ h)
  have hb2 : b ∈ w₂ := hC w₁ a w₂ rfl b he
  have hbW : b ∈ w₁ ++ a :: w₂ :=
    List.mem_append_right _ (List.mem_cons_of_mem _ hb2)
  have hba : b ≠ a := by
    intro hba
    subst hba
    exact hanot (List.mem_append_right _ hb2)
  have hb1 : b ∉ w₁ := by
    intro hb1
    have hdisj := (List.nodup_append.mp (List.nodup_cons.mp hmid).2).2.2
    exact hdisj hb1 hb2
  refine ⟨hbW, ?_⟩
  rw [indexOf_append_self ha1]
  exact indexOf_append_gt hb1 hba

theorem closed_reaches_lt {deps : Deps} {W : List String}
    (hC : ClosedList deps W) (hN : W.Nodup) {a b : String}
    (h : Reaches deps a b) (ha : a ∈ W) :
    b ∈ W ∧ List.indexOf a W < List.indexOf b W := by
  induction h with
  | single he => exact closed_edge_lt hC hN he ha
  | cons he _ ih =>
    obtain ⟨hbW, hlt⟩ := closed_edge_lt hC hN he ha
    obtain ⟨hcW, hlt'⟩ := ih hbW
    exact ⟨hcW, hlt.trans hlt'⟩

theorem goKeys_ok_acyclic {deps : Deps} {W : List String}
    (h : goKeys deps deps [] = some (.ok W)) : ¬ HasCycle deps := by
  rintro ⟨n, hn⟩
  obtain ⟨_, hkeys, hnd, hcl⟩ := goKeys_ok_spec deps deps [] W h
  have hW : W.Nodup := hnd List.nodup_nil
  have hC : ClosedList deps W := hcl (by intro w₁ m w₂ hw; cases w₁ <;> cases hw)
  have hnW : n ∈ W := by
    have hedge : ∃ b, Edge deps n b := by
      cases hn with
      | single e => exact ⟨_, e⟩
      | cons e _ => exact ⟨_, e⟩
    obtain ⟨b, he⟩ := hedge
    have := edge_mem_keys he
    rcases List.mem_map.mp this with ⟨p, hp, hp1⟩
    have := hkeys p hp
    rwa [hp1] at this
  obtain ⟨_, hlt⟩ := closed_reaches_lt hC hW hn hnW
  omega


/-- C4: for every import graph containing a cycle, dependency resolution
fails with the circular-dependency error, and the node named in the error
really lies on a cycle of the graph (it reaches itself through at least
one edge). -/
theorem c4_cycle_error_names_cycle_node (deps : Deps) (h : HasCycle deps) :
    ∃ n, Reaches deps n n ∧ topological_sort deps = .error (.circular n) := by
  cases hg : goKeys deps deps [] with
  | none =>
    exact absurd hg (goKeys_not_none deps deps []
      (fun p hp => keys_subset_univ hp))
  | some r =>
    cases r with
    | ok W => exact absurd h (goKeys_ok_acyclic hg)
    | error n =>
      refine ⟨n, goKeys_error_sound deps deps [] n hg, ?_⟩
      unfold topological_sort detect_cycles
      rw [hg]

/-- C4 witness: the two-node cycle X imports Y, Y imports X; the cycle
hypothesis is discharged by the explicit two-edge path. -/
theorem c4_witness_two_node_cycle :
    ∃ n, Reaches depsXY n n
      ∧ topological_sort depsXY = .error (.circular n) :=
  c4_cycle_error_names_cycle_node depsXY
    ⟨"X", .cons (show "Y" ∈ childrenOf depsXY "X" by decide)
      (.single (show "X" ∈ childrenOf depsXY "Y" by decide))⟩

end Scripts

end Claims
